import Mathlib

/-!
# Verification of the hikki node-layout engine

Shallow embedding of the graph layout core of the repository:

* `src/src/services/nodePositioning.js` — `placeNodes`, `calculateYPosition`,
  `findLongestPathToNode`, `calculateXPosition`, `groupByType`;
* the standalone positioning module (unnamed source, `part_002`) —
  `groupNodesByTerritory`, `groupByTerritoryMembership`, `groupByNodeType`;
* `src/src/composables/useNodes.js` — the drag constraint in `onNodeDragMove`,
  the boundary-warning flag protocol of `onNodeDragMove`/`onNodeDragEnd`, and
  the territory packer `calculateTerritoryDimensions`/`positionNodeInTerritory`.

JS numbers that only ever hold integers are modelled as `Int`/`Nat`;
JS `Set` (only membership, insert and delete are used) as `List String`;
JS `Map` (insertion-ordered) as an association list; absent fields as `Option`.
The boundary-warning property `_boundaryWarned` (present/absent) is a `Bool`.
-/

/-- Metadata object carried by nodes of the standalone positioning module:
only the `territories` array is read by the layout code. -/
structure NodeMeta where
  territories : Option (List String)
deriving Repr, DecidableEq

/-- A node of the knowledge map.  `x`/`y` are the layout outputs;
`type` and `metadata` may be absent (JS `undefined`);
`boundaryWarned` models the presence of the transient `_boundaryWarned`
property used by the drag code of `useNodes.js`. -/
structure Node where
  id : String
  label : String
  type : Option String
  metadata : Option NodeMeta
  x : Int
  y : Int
  boundaryWarned : Bool
deriving Repr, DecidableEq

/-- A directed typed edge. -/
structure Edge where
  id : String
  source : String
  target : String
  type : String
deriving Repr, DecidableEq

/-- A territory: a rectangle with an explicit membership list. -/
structure Territory where
  id : String
  label : String
  x : Int
  y : Int
  w : Int
  h : Int
  nodeIds : List String
deriving Repr, DecidableEq

-- Built-in defaults of nodePositioning.js
def VERTICAL_SPACING : Int := 150
def HORIZONTAL_SPACING : Int := 200
def GROUP_SPACING : Int := 100
def START_X : Int := 100
def START_Y : Int := 100

-- Territory/drag constants of useNodes.js
def NODE_WIDTH : Int := 180
def NODE_HEIGHT : Int := 80
def TERRITORY_PADDING : Int := 20
def TERRITORY_HEADER : Int := 60
def NODE_SPACING_X : Int := 20
def NODE_SPACING_Y : Int := 20
def COLS_PER_TERRITORY : Int := 2

/-- The edge-type test of the depth pass:
`e.type === 'hierarchy' || e.type === 'dependency'`. -/
def isHierDep (e : Edge) : Bool :=
  e.type == "hierarchy" || e.type == "dependency"

/-- All edge sources, as a finite set (used only for the termination measure
of the depth search; it is not part of the JS code). -/
def edgeSources (edges : List Edge) : Finset String :=
  edges.foldr (fun e s => insert e.source s) ∅

theorem source_mem_edgeSources {e : Edge} {edges : List Edge}
    (h : e ∈ edges) : e.source ∈ edgeSources edges := by
  induction h with
  | head rest => simp [edgeSources]
  | tail f hm ih =>
    simp only [edgeSources, List.foldr] at ih ⊢
    exact Finset.mem_insert_of_mem ih

/-- Termination measure of `findLongestPathToNode`: the number of node ids
that the recursion could still add to `visited`. -/
def depthMeasure (nodeId : String) (edges : List Edge) (visited : List String) : Nat :=
  ((insert nodeId (edgeSources edges)).filter (fun s => s ∉ visited)).card

theorem depthMeasure_decreases {nodeId s : String} {edges : List Edge}
    {visited : List String} (hs : s ∈ edgeSources edges) (hn : nodeId ∉ visited) :
    depthMeasure s edges (nodeId :: visited) < depthMeasure nodeId edges visited := by
  unfold depthMeasure
  apply Finset.card_lt_card
  constructor
  · intro x hx
    simp only [Finset.mem_filter, Finset.mem_insert, List.mem_cons] at hx ⊢
    obtain ⟨hx1, hx2⟩ := hx
    refine ⟨?_, fun hv => hx2 (Or.inr hv)⟩
    rcases hx1 with h | h
    · subst h; exact Or.inr hs
    · exact Or.inr h
  · intro hsub
    have hmem : nodeId ∈ (insert nodeId (edgeSources edges)).filter (fun t => t ∉ visited) := by
      simp [Finset.mem_filter, hn]
    have := hsub hmem
    simp [Finset.mem_filter] at this

/-- `findLongestPathToNode` of nodePositioning.js: DFS longest path over
incoming `hierarchy`/`dependency` edges, with an on-stack visited set
(added on entry, removed on exit — modelled by passing the extended set
only to the recursive calls). -/
def findLongestPathToNode (nodeId : String) (edges : List Edge) (visited : List String) : Nat :=
  if nodeId ∈ visited then 0
  else
    let incoming := edges.filter (fun e => isHierDep e && e.target == nodeId)
    if incoming.isEmpty then 0
    else
      ((incoming.attach.map (fun e =>
          findLongestPathToNode e.1.source edges (nodeId :: visited))).foldl max 0) + 1
termination_by depthMeasure nodeId edges visited
decreasing_by
  rename_i hnv _
  have hmem : e.1 ∈ edges.filter (fun e => isHierDep e && e.target == nodeId) := e.2
  have hsrc : e.1.source ∈ edgeSources edges :=
    source_mem_edgeSources (List.mem_of_mem_filter hmem)
  exact depthMeasure_decreases hsrc hnv

/-- The same recursion with an explicit call-stack budget (`fuel`):
`none` means the JS recursion would have needed a deeper call stack.
This mirrors the source line by line; the loop
`maxDepth = Math.max(maxDepth, depth)` is the `foldl`. -/
def findLongestPathFuel : Nat → String → List Edge → List String → Option Nat
  | 0, _, _, _ => none
  | fuel + 1, nodeId, edges, visited =>
    if nodeId ∈ visited then some 0
    else
      let incoming := edges.filter (fun e => isHierDep e && e.target == nodeId)
      if incoming.isEmpty then some 0
      else
        (incoming.foldl (fun acc e =>
            match acc, findLongestPathFuel fuel e.source edges (nodeId :: visited) with
            | some m, some d => some (max m d)
            | _, _ => none) (some 0)).map (· + 1)

theorem depthMeasure_lt_of_fuel {nodeId : String} {edges : List Edge}
    {visited : List String} {e : Edge} {f : Nat}
    (he : e ∈ edges.filter (fun e => isHierDep e && e.target == nodeId))
    (hv : nodeId ∉ visited) (hlt : depthMeasure nodeId edges visited < f + 1) :
    depthMeasure e.source edges (nodeId :: visited) < f := by
  have hsrc : e.source ∈ edgeSources edges :=
    source_mem_edgeSources (List.mem_of_mem_filter he)
  have := depthMeasure_decreases hsrc hv
  omega

theorem foldl_fuel_eq {f : Nat} {edges : List Edge} {v2 : List String}
    (l : List Edge)
    (hcall : ∀ e ∈ l, findLongestPathFuel f e.source edges v2 =
        some (findLongestPathToNode e.source edges v2)) :
    ∀ a : Nat,
      l.foldl (fun acc e =>
          match acc, findLongestPathFuel f e.source edges v2 with
          | some m, some d => some (max m d)
          | _, _ => none) (some a) =
        some (l.foldl (fun m e => max m (findLongestPathToNode e.source edges v2)) a) := by
  induction l with
  | nil => intro a; rfl
  | cons e rest ih =>
    intro a
    have h1 := hcall e (List.mem_cons_self e rest)
    simp only [List.foldl_cons, h1]
    exact ih (fun e2 he2 => hcall e2 (List.mem_cons_of_mem e he2)) _

/-- With a call-stack budget larger than the number of node ids still
outside `visited`, the budgeted recursion completes and agrees with the
total function. -/
theorem findLongestPathFuel_eq :
    ∀ (fuel : Nat) (nodeId : String) (edges : List Edge) (visited : List String),
      depthMeasure nodeId edges visited < fuel →
      findLongestPathFuel fuel nodeId edges visited =
        some (findLongestPathToNode nodeId edges visited) := by
  intro fuel
  induction fuel with
  | zero => intro _ _ _ h; omega
  | succ f ih =>
    intro nodeId edges visited hlt
    rw [findLongestPathFuel, findLongestPathToNode]
    by_cases hv : nodeId ∈ visited
    · simp only [hv, if_true]
    · simp only [hv, if_false]
      by_cases he : (edges.filter (fun e => isHierDep e && e.target == nodeId)).isEmpty
      · simp only [he, if_true]
      · simp only [he, if_false]
        have hcall : ∀ e ∈ edges.filter (fun e => isHierDep e && e.target == nodeId),
            findLongestPathFuel f e.source edges (nodeId :: visited) =
              some (findLongestPathToNode e.source edges (nodeId :: visited)) := by
          intro e hmem
          exact ih e.source edges (nodeId :: visited)
            (depthMeasure_lt_of_fuel hmem hv hlt)
        rw [foldl_fuel_eq _ hcall 0]
        rw [List.attach_map_val
          (edges.filter (fun e => isHierDep e && e.target == nodeId))
          (fun e => findLongestPathToNode e.source edges (nodeId :: visited))]
        simp [List.foldl_map]

/-- Transfer of a concretely computed budgeted value to the total function. -/
theorem findLongestPath_eval (fuel : Nat) {nodeId : String} {edges : List Edge} {d : Nat}
    (h1 : findLongestPathFuel fuel nodeId edges [] = some d)
    (h2 : depthMeasure nodeId edges [] < fuel) :
    findLongestPathToNode nodeId edges [] = d := by
  have h3 := findLongestPathFuel_eq fuel nodeId edges [] h2
  rw [h1] at h3
  exact (Option.some.inj h3).symm

/-- `calculateYPosition` of nodePositioning.js. -/
def calculateYPosition (node : Node) (edges : List Edge) : Int :=
  let hierarchicalEdges := edges.filter (fun e => isHierDep e && e.target == node.id)
  if hierarchicalEdges.isEmpty then START_Y
  else START_Y + (findLongestPathToNode node.id edges [] : Int) * VERTICAL_SPACING

-- The fixture of test-positioning.js: A→B→C→D→B, all dependency edges.
def nodeA : Node := ⟨"A", "Root", none, none, 0, 0, false⟩
def nodeB : Node := ⟨"B", "Node B", none, none, 0, 0, false⟩
def nodeC : Node := ⟨"C", "Node C", none, none, 0, 0, false⟩
def nodeD : Node := ⟨"D", "Node D", none, none, 0, 0, false⟩

def testEdges : List Edge :=
  [ ⟨"e1", "A", "B", "dependency"⟩,
    ⟨"e2", "B", "C", "dependency"⟩,
    ⟨"e3", "C", "D", "dependency"⟩,
    ⟨"e4", "D", "B", "dependency"⟩ ]

theorem fLP_B : findLongestPathToNode "B" testEdges [] = 3 :=
  findLongestPath_eval 10 (by decide) (by decide)

theorem fLP_C : findLongestPathToNode "C" testEdges [] = 3 :=
  findLongestPath_eval 10 (by decide) (by decide)

theorem fLP_D : findLongestPathToNode "D" testEdges [] = 3 :=
  findLongestPath_eval 10 (by decide) (by decide)

theorem fLP_A : findLongestPathToNode "A" testEdges [] = 0 :=
  findLongestPath_eval 10 (by decide) (by decide)

theorem calcY_B : calculateYPosition nodeB testEdges = 550 := by
  simp only [calculateYPosition]
  rw [show nodeB.id = "B" from rfl, fLP_B]
  decide

theorem calcY_C : calculateYPosition nodeC testEdges = 550 := by
  simp only [calculateYPosition]
  rw [show nodeC.id = "C" from rfl, fLP_C]
  decide

theorem calcY_D : calculateYPosition nodeD testEdges = 550 := by
  simp only [calculateYPosition]
  rw [show nodeD.id = "D" from rfl, fLP_D]
  decide

theorem calcY_A : calculateYPosition nodeA testEdges = 100 := by
  simp only [calculateYPosition]
  decide

/-- C1, counterexample: in the repository's own cycle fixture A→B→C→D→B,
the common depth of the cycle nodes is not `1 + depth(A)`: the DFS walks
the whole cycle before the back-edge is cut, so `depth(B) = 3` while
`depth(A) = 0`. -/
theorem cycle_collapse_counterexample :
    findLongestPathToNode "B" testEdges [] ≠ findLongestPathToNode "A" testEdges [] + 1 := by
  rw [fLP_B, fLP_A]
  decide

theorem edgeSources_card_le (edges : List Edge) :
    (edgeSources edges).card ≤ edges.length := by
  induction edges with
  | nil => simp [edgeSources]
  | cons e rest ih =>
    simp only [edgeSources, List.foldr, List.length_cons] at ih ⊢
    calc (insert e.source (rest.foldr (fun (f : Edge) s => insert f.source s) (∅ : Finset String))).card
        ≤ (rest.foldr (fun (f : Edge) s => insert f.source s) (∅ : Finset String)).card + 1 :=
          Finset.card_insert_le _ _
      _ ≤ rest.length + 1 := by omega

theorem depthMeasure_le (nodeId : String) (edges : List Edge) (visited : List String) :
    depthMeasure nodeId edges visited ≤ edges.length + 1 := by
  unfold depthMeasure
  calc ((insert nodeId (edgeSources edges)).filter (fun s => s ∉ visited)).card
      ≤ (insert nodeId (edgeSources edges)).card := Finset.card_filter_le _ _
    _ ≤ (edgeSources edges).card + 1 := Finset.card_insert_le _ _
    _ ≤ edges.length + 1 := by have := edgeSources_card_le edges; omega

/-- C9: the depth search terminates on every finite graph, cycles and
self-loops included: the recursion (modelled with an explicit call-stack
budget) never needs more than `edges.length + 2` stack frames, and with any
such budget it completes and returns the well-defined longest-path depth. -/
theorem depth_search_terminates (nodeId : String) (edges : List Edge)
    (visited : List String) (fuel : Nat) (hfuel : edges.length + 2 ≤ fuel) :
    findLongestPathFuel fuel nodeId edges visited =
      some (findLongestPathToNode nodeId edges visited) := by
  apply findLongestPathFuel_eq
  have := depthMeasure_le nodeId edges visited
  omega

/-- Witness for C9 at the cycle fixture. -/
theorem depth_search_terminates_witness :
    findLongestPathFuel 10 "B" testEdges [] =
      some (findLongestPathToNode "B" testEdges []) :=
  depth_search_terminates "B" testEdges [] 10 (by decide)

-- A dependency chain of arbitrary length: cname 0 → cname 1 → ... → cname n.
def cname (i : Nat) : String := ⟨List.replicate i 'a'⟩

def chainEdges : Nat → List Edge
  | 0 => []
  | n + 1 => chainEdges n ++ [⟨cname (n + 1), cname n, cname (n + 1), "dependency"⟩]

theorem cname_inj {i j : Nat} (h : cname i = cname j) : i = j := by
  have := congrArg (fun s => s.data.length) h
  simpa [cname] using this

theorem chain_filter (n k : Nat) :
    (chainEdges n).filter (fun e => isHierDep e && e.target == cname k) =
      if 1 ≤ k ∧ k ≤ n then [⟨cname k, cname (k - 1), cname k, "dependency"⟩] else [] := by
  induction n with
  | zero =>
    rw [if_neg (by omega)]
    rfl
  | succ m ih =>
    rw [chainEdges, List.filter_append, ih]
    by_cases hk : k = m + 1
    · subst hk
      rw [if_neg (by omega), if_pos (by omega)]
      simp [isHierDep]
    · have hne : (cname (m + 1) == cname k) = false := by
        apply beq_false_of_ne
        intro h
        exact hk (cname_inj h).symm
      by_cases hk2 : 1 ≤ k ∧ k ≤ m
      · rw [if_pos hk2, if_pos (by omega)]
        simp [isHierDep, hne]
      · rw [if_neg hk2, if_neg (by omega)]
        simp [isHierDep, hne]

theorem chain_depth_aux (n : Nat) :
    ∀ (k : Nat), k ≤ n → ∀ (v : List String),
      (∀ j, j ≤ k → cname j ∉ v) →
      findLongestPathToNode (cname k) (chainEdges n) v = k := by
  intro k
  induction k with
  | zero =>
    intro _ v hv
    rw [findLongestPathToNode, if_neg (hv 0 (le_refl _))]
    rw [chain_filter, if_neg (show ¬(1 ≤ 0 ∧ 0 ≤ n) by omega)]
    simp
  | succ k ih =>
    intro hkn v hv
    rw [findLongestPathToNode, if_neg (hv (k + 1) (le_refl _))]
    rw [chain_filter,
      if_pos (show 1 ≤ k + 1 ∧ k + 1 ≤ n from ⟨by omega, hkn⟩)]
    have hrec : findLongestPathToNode (cname k)
        (chainEdges n) (cname (k + 1) :: v) = k := by
      apply ih (by omega)
      intro j hj
      simp only [List.mem_cons]
      rintro (h | h)
      · have := cname_inj h; omega
      · exact hv j (by omega) h
    simp [List.attach_map_val, hrec]

theorem chainEdges_length (n : Nat) : (chainEdges n).length = n := by
  induction n with
  | zero => rfl
  | succ m ih => simp [chainEdges, ih]

/-- C3, counterexample: the depth resolver has no safety bound and no
`GraphTooDeep` error channel: on a dependency chain of 100 edges — the
kind of pathological input the claim says must raise `GraphTooDeep` — it
simply completes and returns the plain numeric depth 100. -/
theorem graph_too_deep_counterexample :
    (chainEdges 100).length = 100 ∧
    findLongestPathToNode (cname 100) (chainEdges 100) [] = 100 := by
  refine ⟨chainEdges_length 100, ?_⟩
  apply chain_depth_aux 100 100 (le_refl _)
  simp

/-- C3, amended: depth resolution enforces no safety bound and never
signals a `GraphTooDeep` condition: on a dependency chain of any length n
it completes normally and returns the numeric depth n for the chain's last
node (termination is guaranteed only by the visited set, cf. the
termination theorem). -/
theorem no_depth_bound_amended (n : Nat) :
    findLongestPathToNode (cname n) (chainEdges n) [] = n := by
  apply chain_depth_aux n n (le_refl _)
  simp

/-- The key of `groupByType`: `node.type || 'default'` (JS falsy test:
absent or empty string falls back to the default bucket). -/
def typeKey (n : Node) : String :=
  match n.type with
  | none => "default"
  | some t => if t = "" then "default" else t

/-- One `groups.get(key).push(node)` / `groups.set(key, [node])` step of the
JS `Map`-based grouping, on an insertion-ordered association list (JS `Map`
iterates in insertion order). -/
def upsert (key : String) (n : Node) : List (String × List Node) → List (String × List Node)
  | [] => [(key, [n])]
  | (k, g) :: rest =>
    if k = key then (k, g ++ [n]) :: rest
    else (k, g) :: upsert key n rest

/-- The populated `groups` Map: `nodes.forEach(...)` over the upsert step. -/
def groupMap (key : Node → String) (nodes : List Node) : List (String × List Node) :=
  nodes.foldl (fun acc n => upsert (key n) n acc) []

/-- `groupByType` of nodePositioning.js: `Array.from(groups.values())`. -/
def groupByType (nodes : List Node) : List (List Node) :=
  (groupMap typeKey nodes).map Prod.snd

/-- Spec-side: the group keys in the order in which each key is first
encountered while scanning the nodes in original array order. -/
def firstKeys (key : Node → String) : List Node → List String
  | [] => []
  | n :: rest => key n :: (firstKeys key rest).filter (fun s => s != key n)

/-- Spec-side: the grouping described by the spec — one group per
first-encountered key, each group the subsequence of nodes with that key. -/
def groupsSpec (key : Node → String) (l : List Node) : List (String × List Node) :=
  (firstKeys key l).map (fun c => (c, l.filter (fun n => key n == c)))

theorem firstKeys_mem {key : Node → String} {c : String} :
    ∀ {l : List Node}, c ∈ firstKeys key l ↔ c ∈ l.map key := by
  intro l
  induction l with
  | nil => simp [firstKeys]
  | cons n rest ih =>
    by_cases hc : c = key n
    · subst hc; simp [firstKeys]
    · simp [firstKeys, List.mem_filter, hc, ih]

theorem firstKeys_nodup (key : Node → String) :
    ∀ (l : List Node), (firstKeys key l).Nodup := by
  intro l
  induction l with
  | nil => simp [firstKeys]
  | cons n rest ih =>
    simp only [firstKeys, List.nodup_cons]
    refine ⟨?_, ih.filter _⟩
    intro hmem
    rw [List.mem_filter] at hmem
    simp at hmem

theorem firstKeys_append (key : Node → String) (n : Node) :
    ∀ (l : List Node),
      firstKeys key (l ++ [n]) =
        if key n ∈ firstKeys key l then firstKeys key l
        else firstKeys key l ++ [key n] := by
  intro l
  induction l with
  | nil => simp [firstKeys]
  | cons m rest ih =>
    rw [show firstKeys key ((m :: rest) ++ [n]) =
        key m :: (firstKeys key (rest ++ [n])).filter (fun s => s != key m) from rfl]
    rw [ih]
    by_cases h1 : key n ∈ firstKeys key rest
    · rw [if_pos h1, if_pos]
      · rfl
      · by_cases h2 : key n = key m
        · simp [firstKeys, h2]
        · simp only [firstKeys, List.mem_cons, List.mem_filter]
          exact Or.inr ⟨h1, by simp [h2]⟩
    · rw [if_neg h1]
      by_cases h2 : key n = key m
      · rw [if_pos (show key n ∈ firstKeys key (m :: rest) by simp [firstKeys, h2])]
        rw [show firstKeys key (m :: rest) =
          key m :: (firstKeys key rest).filter (fun s => s != key m) from rfl]
        rw [List.filter_append]
        simp [h2]
      · rw [if_neg]
        · rw [show firstKeys key (m :: rest) =
            key m :: (firstKeys key rest).filter (fun s => s != key m) from rfl]
          rw [List.filter_append]
          simp [h2]
        · rw [show firstKeys key (m :: rest) =
            key m :: (firstKeys key rest).filter (fun s => s != key m) from rfl]
          simp only [List.mem_cons, List.mem_filter, not_or]
          refine ⟨h2, fun hin => h1 hin.1⟩

theorem upsert_in (c0 : String) (x : Node) (F : String → List Node) :
    ∀ (ks : List String), ks.Nodup → c0 ∈ ks →
      upsert c0 x (ks.map (fun c => (c, F c))) =
        ks.map (fun c => (c, if c = c0 then F c ++ [x] else F c)) := by
  intro ks
  induction ks with
  | nil => intro _ h; cases h
  | cons k rest ih =>
    intro hnd hmem
    simp only [List.map_cons, upsert]
    by_cases hk : k = c0
    · rw [if_pos hk]
      subst hk
      have hknotin : k ∉ rest := (List.nodup_cons.mp hnd).1
      congr 1
      · rw [if_pos rfl]
      · refine (List.map_congr_left ?_).symm
        intro c hc
        rw [if_neg]
        intro hck
        exact hknotin (hck ▸ hc)
    · rw [if_neg hk]
      have hmem2 : c0 ∈ rest := by
        rcases List.mem_cons.mp hmem with h | h
        · exact absurd h.symm hk
        · exact h
      rw [ih (List.nodup_cons.mp hnd).2 hmem2]
      congr 1
      rw [if_neg hk]

theorem upsert_out (c0 : String) (x : Node) (F : String → List Node) :
    ∀ (ks : List String), c0 ∉ ks →
      upsert c0 x (ks.map (fun c => (c, F c))) =
        ks.map (fun c => (c, F c)) ++ [(c0, [x])] := by
  intro ks
  induction ks with
  | nil => intro _; rfl
  | cons k rest ih =>
    intro hmem
    simp only [List.mem_cons, not_or] at hmem
    simp only [List.map_cons, upsert]
    rw [if_neg (fun h => hmem.1 h.symm), ih hmem.2]
    rfl

/-- The JS `Map`-based grouping equals the spec's description: one group
per first-encountered key, in first-encounter order, each group holding the
nodes with that key in original order. -/
theorem groupMap_eq_spec (key : Node → String) :
    ∀ (l : List Node), groupMap key l = groupsSpec key l := by
  intro l
  induction l using List.reverseRecOn with
  | nil => rfl
  | append_singleton l n ih =>
    have hstep : groupMap key (l ++ [n]) = upsert (key n) n (groupMap key l) := by
      simp [groupMap, List.foldl_append]
    rw [hstep, ih]
    unfold groupsSpec
    by_cases hmem : key n ∈ firstKeys key l
    · rw [upsert_in _ _ _ _ (firstKeys_nodup key l) hmem]
      rw [firstKeys_append, if_pos hmem]
      apply List.map_congr_left
      intro c _
      rw [List.filter_append]
      by_cases hc : c = key n
      · subst hc
        simp
      · rw [if_neg hc]
        have : (key n == c) = false := by
          simp only [beq_eq_false_iff_ne, ne_eq]
          exact fun h => hc h.symm
        simp [this]
    · rw [upsert_out _ _ _ _ hmem]
      rw [firstKeys_append, if_neg hmem]
      rw [List.map_append]
      congr 1
      · apply List.map_congr_left
        intro c hc
        rw [List.filter_append]
        have hcne : c ≠ key n := fun h => hmem (h ▸ hc)
        have : (key n == c) = false := by
          simp only [beq_eq_false_iff_ne, ne_eq]
          exact fun h => hcne h.symm
        simp [this]
      · have hempty : l.filter (fun m => key m == key n) = [] := by
          rw [List.filter_eq_nil_iff]
          intro m hm
          simp only [beq_iff_eq]
          intro h
          exact hmem (firstKeys_mem.mpr (h ▸ List.mem_map_of_mem key hm))
        simp [List.filter_append, hempty]

theorem groupValues (key : Node → String) (l : List Node) :
    (groupMap key l).map Prod.snd =
      (firstKeys key l).map (fun c => l.filter (fun n => key n == c)) := by
  rw [groupMap_eq_spec]
  unfold groupsSpec
  rw [List.map_map]
  rfl

/-- `node.metadata?.territories || []` of the standalone positioning module. -/
def metaTerritories (n : Node) : List String :=
  match n.metadata with
  | none => []
  | some md =>
    match md.territories with
    | none => []
    | some ts => ts

/-- The check `n.metadata && n.metadata.territories &&
n.metadata.territories.length > 0` applied over the whole dataset. -/
def territoriesExist (allNodes : List Node) : Bool :=
  allNodes.any (fun n => decide (0 < (metaTerritories n).length))

/-- `territories[0] || 'no-territory'` (an empty-string first id is falsy
in JS and also falls back to the catch-all key). -/
def primaryTerritory (n : Node) : String :=
  match metaTerritories n with
  | [] => "no-territory"
  | t :: _ => if t = "" then "no-territory" else t

/-- `groupByTerritoryMembership` of the standalone positioning module. -/
def groupByTerritoryMembership (nodes : List Node) : List (List Node) :=
  (groupMap primaryTerritory nodes).map Prod.snd

/-- `groupByNodeType` of the standalone positioning module (same grouping
body as `groupByType` of nodePositioning.js). -/
def groupByNodeType (nodes : List Node) : List (List Node) :=
  (groupMap typeKey nodes).map Prod.snd

/-- `groupNodesByTerritory` of the standalone positioning module. -/
def groupNodesByTerritory (nodes allNodes : List Node) : List (List Node) :=
  if territoriesExist allNodes then groupByTerritoryMembership nodes
  else groupByNodeType nodes

/-- Spec-side: the grouping key described by the spec — first listed
territory id when any node of the whole dataset carries territory
metadata, otherwise the node type. -/
def groupKeySpec (allNodes : List Node) (n : Node) : String :=
  if territoriesExist allNodes then primaryTerritory n else typeKey n

/-- C4: the partition used for X placement groups same-depth nodes by first
listed territory id when any node of the dataset has territory metadata
(no-territory nodes in the catch-all group), otherwise by node type
(untyped nodes in the default bucket); the groups appear in the order in
which each key is first encountered in original array order (not sorted),
and each group lists its nodes in original relative order. -/
theorem grouping_by_territory_or_type (nodes allNodes : List Node) :
    groupNodesByTerritory nodes allNodes =
      (firstKeys (groupKeySpec allNodes) nodes).map
        (fun c => nodes.filter (fun n => groupKeySpec allNodes n == c)) := by
  by_cases h : territoriesExist allNodes
  · have hk : groupKeySpec allNodes = primaryTerritory := by
      funext n; simp [groupKeySpec, h]
    rw [hk]
    simp only [groupNodesByTerritory, h, if_true]
    exact groupValues primaryTerritory nodes
  · have hk : groupKeySpec allNodes = typeKey := by
      funext n; simp [groupKeySpec, h]
    rw [hk]
    simp only [groupNodesByTerritory, h, Bool.false_eq_true, if_false]
    exact groupValues typeKey nodes

/-- JS `Array.prototype.findIndex`, as an optional index. -/
def findIdxA (p : Node → Bool) : List Node → Option Nat
  | [] => none
  | n :: rest => if p n then some 0 else (findIdxA p rest).map (· + 1)

/-- The group-search loop of `calculateXPosition`: first group whose
`findIndex` is not -1, with the position found there; `none` keeps the
loop's initial `(0, 0)`. -/
def findInGroups (groups : List (List Node)) (nid : String) : Option (Nat × Nat) :=
  match groups with
  | [] => none
  | g :: rest =>
    match findIdxA (fun n => n.id == nid) g with
    | some j => some (0, j)
    | none => (findInGroups rest nid).map (fun q => (q.1 + 1, q.2))

/-- `calculateXPosition` of nodePositioning.js. -/
def calculateXPosition (node : Node) (allNodes : List Node) : Int :=
  let sameLevelNodes := allNodes.filter (fun n => n.y == node.y)
  let groups := groupByType sameLevelNodes
  let found := (findInGroups groups node.id).getD (0, 0)
  let groupIndex := found.1
  let positionInGroup := found.2
  let groupOffset : Int := (groupIndex : Int) * GROUP_SPACING
  let nodesBeforeGroup : Int := (((groups.take groupIndex).map List.length).sum : Int)
  START_X + groupOffset + ((nodesBeforeGroup + (positionInGroup : Int)) * HORIZONTAL_SPACING)

/-- `placeNodes` of nodePositioning.js: pass 1 sets every `y`, pass 2 sets
every `x` against the y-updated collection (`calculateXPosition` reads only
`y`, `id` and `type`, so the in-place mutation order is equivalent). -/
def placeNodes (nodes : List Node) (edges : List Edge) : List Node :=
  let nodes1 := nodes.map (fun node => { node with y := calculateYPosition node edges })
  nodes1.map (fun node => { node with x := calculateXPosition node nodes1 })

/-- Spec-side: a node with its layout outputs blanked, for stating that
`placeNodes` writes nothing but `x` and `y`. -/
def eraseXY (n : Node) : Node := { n with x := 0, y := 0 }

/-- C10: `placeNodes` writes only the `x` and `y` fields: erasing the two
coordinates from its output gives back exactly the input nodes (same
length, same order, all other fields untouched).  The edges list is only
read (the embedding's `placeNodes` never produces edges at all). -/
theorem placeNodes_frame_only_xy (nodes : List Node) (edges : List Edge) :
    (placeNodes nodes edges).map eraseXY = nodes.map eraseXY := by
  unfold placeNodes eraseXY
  simp only [List.map_map]
  rfl

/-- C1, amended: for the edge set A→B→C→D→B, `placeNodes` gives B, C and D
the same depth (equal y = `START_Y + 3 * VERTICAL_SPACING`), but the common
depth is 3 (= depth(A) + 3), not `1 + depth(A)`; A keeps depth 0. -/
theorem cycle_collapse_amended :
    (placeNodes [nodeA, nodeB, nodeC, nodeD] testEdges).map (fun n => n.y) =
      [100, 550, 550, 550] ∧
    findLongestPathToNode "B" testEdges [] = 3 ∧
    findLongestPathToNode "C" testEdges [] = 3 ∧
    findLongestPathToNode "D" testEdges [] = 3 ∧
    findLongestPathToNode "A" testEdges [] = 0 ∧
    calculateYPosition nodeB testEdges = START_Y + 3 * VERTICAL_SPACING ∧
    calculateYPosition nodeA testEdges = START_Y := by
  refine ⟨?_, fLP_B, fLP_C, fLP_D, fLP_A, ?_, ?_⟩
  · unfold placeNodes
    simp only [List.map_cons, List.map_nil, List.map_map, Function.comp]
    simp only [calcY_A, calcY_B, calcY_C, calcY_D]
  · rw [calcY_B]; decide
  · rw [calcY_A]; decide

-- A node whose only incoming edge is a self-loop.
def nodeS : Node := ⟨"S", "Self", none, none, 0, 0, false⟩

def selfEdges : List Edge := [⟨"e", "S", "S", "dependency"⟩]

theorem fLP_S : findLongestPathToNode "S" selfEdges [] = 1 :=
  findLongestPath_eval 3 (by decide) (by decide)

/-- C2, counterexample: a node whose only incoming dependency edge is a
self-loop does not get the root y coordinate `START_Y`: the self-loop
branch contributes 0, but the node still gets `maxDepth + 1 = 1`. -/
theorem self_loop_counterexample :
    calculateYPosition nodeS selfEdges ≠ START_Y := by
  simp only [calculateYPosition]
  rw [show nodeS.id = "S" from rfl, fLP_S]
  decide

/-- C2, amended: a self-loop `source === target` causes no infinite
recursion (a call-stack budget of 2 frames already suffices), and the node
is assigned depth 1, i.e. `placeNodes` writes
y = `START_Y + VERTICAL_SPACING`, not the root coordinate `START_Y`. -/
theorem self_loop_amended :
    findLongestPathFuel 2 "S" selfEdges [] = some 1 ∧
    findLongestPathToNode "S" selfEdges [] = 1 ∧
    (placeNodes [nodeS] selfEdges).map (fun n => n.y) =
      [START_Y + VERTICAL_SPACING] := by
  refine ⟨by decide, fLP_S, ?_⟩
  unfold placeNodes
  simp only [List.map_cons, List.map_nil, List.map_map, Function.comp]
  have hS : calculateYPosition nodeS selfEdges = 250 := by
    simp only [calculateYPosition]
    rw [show nodeS.id = "S" from rfl, fLP_S]
    decide
  simp only [hS]
  decide

theorem findIdxA_some {p : Node → Bool} :
    ∀ {l : List Node} {j : Nat}, findIdxA p l = some j →
      ∃ m, l.get? j = some m ∧ p m = true := by
  intro l
  induction l with
  | nil => intro j h; cases h
  | cons n rest ih =>
    intro j h
    rw [findIdxA] at h
    by_cases hp : p n
    · rw [if_pos hp] at h
      cases h
      exact ⟨n, rfl, hp⟩
    · rw [if_neg hp] at h
      rcases Option.map_eq_some'.mp h with ⟨j2, hj2, rfl⟩
      rcases ih hj2 with ⟨m, hm, hpm⟩
      exact ⟨m, hm, hpm⟩

theorem findIdxA_exists {p : Node → Bool} :
    ∀ {l : List Node}, (∃ m ∈ l, p m = true) → ∃ j, findIdxA p l = some j := by
  intro l
  induction l with
  | nil => rintro ⟨m, hm, _⟩; cases hm
  | cons n rest ih =>
    rintro ⟨m, hm, hpm⟩
    rw [findIdxA]
    by_cases hp : p n
    · exact ⟨0, by rw [if_pos hp]⟩
    · rcases List.mem_cons.mp hm with h | h
      · exact absurd (h ▸ hpm) hp
      · rcases ih ⟨m, h, hpm⟩ with ⟨j, hj⟩
        exact ⟨j + 1, by rw [if_neg hp, hj]; rfl⟩

theorem findInGroups_some {nid : String} :
    ∀ {groups : List (List Node)} {i j : Nat},
      findInGroups groups nid = some (i, j) →
      ∃ g, groups.get? i = some g ∧ findIdxA (fun n => n.id == nid) g = some j := by
  intro groups
  induction groups with
  | nil => intro i j h; cases h
  | cons g rest ih =>
    intro i j h
    rw [findInGroups] at h
    rcases hfi : findIdxA (fun n => n.id == nid) g with _ | j0
    · rw [hfi] at h
      rcases Option.map_eq_some'.mp h with ⟨⟨i2, j2⟩, hq, hqe⟩
      cases hqe
      rcases ih hq with ⟨g2, hg2, hj2⟩
      exact ⟨g2, hg2, hj2⟩
    · rw [hfi] at h
      cases h
      exact ⟨g, rfl, hfi⟩

theorem findInGroups_exists {nid : String} :
    ∀ {groups : List (List Node)},
      (∃ g ∈ groups, ∃ m ∈ g, (m.id == nid) = true) →
      ∃ q, findInGroups groups nid = some q := by
  intro groups
  induction groups with
  | nil => rintro ⟨g, hg, _⟩; cases hg
  | cons g rest ih =>
    rintro ⟨g2, hg2, m, hm, hpm⟩
    rw [findInGroups]
    rcases hfi : findIdxA (fun n => n.id == nid) g with _ | j0
    · rcases List.mem_cons.mp hg2 with h | h
      · subst h
        have hex2 : ∃ j, findIdxA (fun n => n.id == nid) g2 = some j :=
          findIdxA_exists ⟨m, hm, hpm⟩
        rcases hex2 with ⟨j, hj⟩
        rw [hj] at hfi
        cases hfi
      · rcases ih ⟨g2, h, m, hm, hpm⟩ with ⟨q, hq⟩
        rw [hq]
        exact ⟨(q.1 + 1, q.2), rfl⟩
    · exact ⟨(0, j0), rfl⟩

theorem sumLen_mono :
    ∀ (G : List (List Node)) (m m2 : Nat), m ≤ m2 →
      ((G.take m).map List.length).sum ≤ ((G.take m2).map List.length).sum := by
  intro G
  induction G with
  | nil => intro m m2 _; simp
  | cons g gs ih =>
    intro m m2 hle
    cases m with
    | zero => simp
    | succ k =>
      cases m2 with
      | zero => omega
      | succ k2 =>
        simp only [List.take_succ_cons, List.map_cons, List.sum_cons]
        have := ih k k2 (by omega)
        omega

theorem sumLen_succ (G : List (List Node)) (i : Nat) (g : List Node)
    (h : G.get? i = some g) :
    ((G.take (i + 1)).map List.length).sum =
      ((G.take i).map List.length).sum + g.length := by
  rw [List.get?_eq_getElem?] at h
  rw [List.take_succ, h]
  simp

theorem sumLen_gap {G : List (List Node)} {i1 i2 : Nat} {g1 : List Node}
    (h1 : G.get? i1 = some g1) (hlt : i1 < i2) :
    ((G.take i1).map List.length).sum + g1.length ≤
      ((G.take i2).map List.length).sum := by
  rw [← sumLen_succ G i1 g1 h1]
  exact sumLen_mono G (i1 + 1) i2 hlt

/-- The X value `calculateXPosition` produces for the node found at group
`i`, position `j`. -/
def xAt (G : List (List Node)) (i j : Nat) : Int :=
  START_X + (i : Int) * GROUP_SPACING +
    (((((G.take i).map List.length).sum : Nat) : Int) + (j : Int)) * HORIZONTAL_SPACING

theorem xAt_lt {G : List (List Node)} {i1 j1 i2 j2 : Nat} {g1 : List Node}
    (hg1 : G.get? i1 = some g1) (hj1 : j1 < g1.length) (hlt : i1 < i2) :
    xAt G i1 j1 < xAt G i2 j2 := by
  have hgap := sumLen_gap hg1 hlt
  unfold xAt
  simp only [START_X, GROUP_SPACING, HORIZONTAL_SPACING]
  have h2 : ((G.take i1).map List.length).sum + j1 + 1 ≤
      ((G.take i2).map List.length).sum + j2 := by omega
  omega

theorem xAt_ne {G : List (List Node)} {i1 j1 i2 j2 : Nat} {g1 g2 : List Node}
    (hg1 : G.get? i1 = some g1) (hj1 : j1 < g1.length)
    (hg2 : G.get? i2 = some g2) (hj2 : j2 < g2.length)
    (hne : ¬(i1 = i2 ∧ j1 = j2)) :
    xAt G i1 j1 ≠ xAt G i2 j2 := by
  rcases Nat.lt_trichotomy i1 i2 with hlt | heq | hgt
  · exact ne_of_lt (xAt_lt hg1 hj1 hlt)
  · subst heq
    have hjne : j1 ≠ j2 := fun h => hne ⟨rfl, h⟩
    unfold xAt
    simp only [START_X, GROUP_SPACING, HORIZONTAL_SPACING]
    intro h
    apply hjne
    omega
  · exact (ne_of_lt (xAt_lt hg2 hj2 hgt)).symm

theorem calcX_formula {y0 : Int} {allNodes : List Node} {node : Node}
    (hmem : node ∈ allNodes) (hy : node.y = y0) :
    ∃ i j g m,
      (groupByType (allNodes.filter (fun n => n.y == y0))).get? i = some g ∧
      g.get? j = some m ∧ m.id = node.id ∧
      calculateXPosition node allNodes =
        xAt (groupByType (allNodes.filter (fun n => n.y == y0))) i j := by
  have hnsl : node ∈ allNodes.filter (fun n => n.y == y0) :=
    List.mem_filter.mpr ⟨hmem, by simp [hy]⟩
  have hkey : typeKey node ∈ firstKeys typeKey (allNodes.filter (fun n => n.y == y0)) :=
    firstKeys_mem.mpr (List.mem_map_of_mem typeKey hnsl)
  rcases List.get?_of_mem hkey with ⟨iK, hiK⟩
  have hGval : groupByType (allNodes.filter (fun n => n.y == y0)) =
      (firstKeys typeKey (allNodes.filter (fun n => n.y == y0))).map
        (fun c => (allNodes.filter (fun n => n.y == y0)).filter (fun n => typeKey n == c)) := by
    unfold groupByType
    exact groupValues typeKey _
  have hG : (groupByType (allNodes.filter (fun n => n.y == y0))).get? iK =
      some ((allNodes.filter (fun n => n.y == y0)).filter
        (fun n => typeKey n == typeKey node)) := by
    have hiK2 : (firstKeys typeKey (allNodes.filter (fun n => n.y == y0)))[iK]? =
        some (typeKey node) := by
      rw [← List.get?_eq_getElem?]; exact hiK
    rw [hGval, List.get?_eq_getElem?, List.getElem?_map, hiK2]
    rfl
  have hng : node ∈ (allNodes.filter (fun n => n.y == y0)).filter
      (fun n => typeKey n == typeKey node) :=
    List.mem_filter.mpr ⟨hnsl, by simp⟩
  have hex : ∃ q, findInGroups (groupByType (allNodes.filter (fun n => n.y == y0)))
      node.id = some q :=
    findInGroups_exists ⟨_, List.get?_mem hG, node, hng, by simp⟩
  rcases hex with ⟨⟨i, j⟩, hq⟩
  rcases findInGroups_some hq with ⟨g, hg, hfi⟩
  rcases findIdxA_some hfi with ⟨m, hmj, hpm⟩
  refine ⟨i, j, g, m, hg, hmj, by simpa using hpm, ?_⟩
  simp only [calculateXPosition, hy, hq, Option.getD_some, xAt]

/-- C6: for any set of same-depth nodes (same computed y) with unique node
ids, `calculateXPosition` assigns pairwise distinct X values: each node is
located at a distinct (group, position) slot of the deterministic grouping,
and the placement formula is strictly monotone over slots. -/
theorem x_positions_distinct {allNodes : List Node} {a b : Node}
    (ha : a ∈ allNodes) (hb : b ∈ allNodes) (hy : a.y = b.y)
    (hid : a.id ≠ b.id)
    (hnodup : (allNodes.map (fun n => n.id)).Nodup) :
    calculateXPosition a allNodes ≠ calculateXPosition b allNodes := by
  rcases calcX_formula ha rfl with ⟨i1, j1, g1, m1, hg1, hm1, hid1, hx1⟩
  rcases calcX_formula hb hy.symm with ⟨i2, j2, g2, m2, hg2, hm2, hid2, hx2⟩
  rw [hx1, hx2]
  rcases List.get?_eq_some.mp hm1 with ⟨hj1, _⟩
  rcases List.get?_eq_some.mp hm2 with ⟨hj2, _⟩
  apply xAt_ne hg1 hj1 hg2 hj2
  rintro ⟨rfl, rfl⟩
  rw [hg1] at hg2
  cases hg2
  rw [hm1] at hm2
  cases hm2
  exact hid (hid1 ▸ hid2 ▸ rfl)

-- Concrete same-depth fixture for the witness.
def wNode1 : Node := ⟨"n1", "W1", some "concept", none, 0, 100, false⟩
def wNode2 : Node := ⟨"n2", "W2", some "event", none, 0, 100, false⟩
def wNode3 : Node := ⟨"n3", "W3", some "concept", none, 0, 100, false⟩

/-- Witness for C6 at a concrete three-node tier. -/
theorem x_positions_distinct_witness :
    calculateXPosition wNode1 [wNode1, wNode2, wNode3] ≠
      calculateXPosition wNode2 [wNode1, wNode2, wNode3] :=
  x_positions_distinct (by decide) (by decide) (by decide) (by decide) (by decide)

/-- `calculateTerritoryDimensions` of useNodes.js: a 2-column card grid
with padding and header, floored at 400×350
(`rows = Math.ceil(nodeCount / COLS_PER_TERRITORY)`). -/
def calculateTerritoryDimensions (nodeCount : Nat) : Int × Int :=
  let rows : Int := ((nodeCount : Int) + COLS_PER_TERRITORY - 1) / COLS_PER_TERRITORY
  let width : Int :=
    TERRITORY_PADDING * 2 + (COLS_PER_TERRITORY * NODE_WIDTH) +
      ((COLS_PER_TERRITORY - 1) * NODE_SPACING_X)
  let height : Int :=
    TERRITORY_HEADER + TERRITORY_PADDING * 2 + (rows * NODE_HEIGHT) +
      ((rows - 1) * NODE_SPACING_Y)
  (max width 400, max height 350)

/-- `positionNodeInTerritory` of useNodes.js: grid slot by index, clamped so
the card's far edges stay inside the territory (the node argument is used
only for the diagnostic log and is omitted). -/
def positionNodeInTerritory (territory : Territory) (indexInTerritory : Nat) : Int × Int :=
  let col : Int := (indexInTerritory : Int) % COLS_PER_TERRITORY
  let row : Int := (indexInTerritory : Int) / COLS_PER_TERRITORY
  let x := territory.x + TERRITORY_PADDING + (col * (NODE_WIDTH + NODE_SPACING_X))
  let y := territory.y + TERRITORY_HEADER + TERRITORY_PADDING +
    (row * (NODE_HEIGHT + NODE_SPACING_Y))
  let maxX := territory.x + territory.w - NODE_WIDTH - TERRITORY_PADDING
  let maxY := territory.y + territory.h - NODE_HEIGHT - TERRITORY_PADDING
  (min x maxX, min y maxY)

/-- C5: for every territory sized by `calculateTerritoryDimensions` from its
member count (1 to 12 members) and every member placed by
`positionNodeInTerritory` at its index, the full card footprint
(NODE_WIDTH × NODE_HEIGHT) lies inside the padded interior
`[x+padding, x+w-padding] × [y+header+padding, y+h-padding]`. -/
theorem territory_containment (tx ty : Int) (count i : Nat)
    (hcount1 : 1 ≤ count) (hcount2 : count ≤ 12) (hi : i < count) :
    tx + TERRITORY_PADDING ≤
      (positionNodeInTerritory ⟨"t", "T", tx, ty,
        (calculateTerritoryDimensions count).1,
        (calculateTerritoryDimensions count).2, []⟩ i).1 ∧
    (positionNodeInTerritory ⟨"t", "T", tx, ty,
        (calculateTerritoryDimensions count).1,
        (calculateTerritoryDimensions count).2, []⟩ i).1 + NODE_WIDTH ≤
      tx + (calculateTerritoryDimensions count).1 - TERRITORY_PADDING ∧
    ty + TERRITORY_HEADER + TERRITORY_PADDING ≤
      (positionNodeInTerritory ⟨"t", "T", tx, ty,
        (calculateTerritoryDimensions count).1,
        (calculateTerritoryDimensions count).2, []⟩ i).2 ∧
    (positionNodeInTerritory ⟨"t", "T", tx, ty,
        (calculateTerritoryDimensions count).1,
        (calculateTerritoryDimensions count).2, []⟩ i).2 + NODE_HEIGHT ≤
      ty + (calculateTerritoryDimensions count).2 - TERRITORY_PADDING := by
  simp only [calculateTerritoryDimensions, positionNodeInTerritory,
    TERRITORY_PADDING, TERRITORY_HEADER, NODE_WIDTH, NODE_HEIGHT,
    NODE_SPACING_X, NODE_SPACING_Y, COLS_PER_TERRITORY]
  omega

/-- Witness for C5: a full 12-member territory, last slot. -/
theorem territory_containment_witness :
    (0 : Int) + TERRITORY_PADDING ≤
      (positionNodeInTerritory ⟨"t", "T", 0, 0,
        (calculateTerritoryDimensions 12).1,
        (calculateTerritoryDimensions 12).2, []⟩ 11).1 ∧
    (positionNodeInTerritory ⟨"t", "T", 0, 0,
        (calculateTerritoryDimensions 12).1,
        (calculateTerritoryDimensions 12).2, []⟩ 11).1 + NODE_WIDTH ≤
      0 + (calculateTerritoryDimensions 12).1 - TERRITORY_PADDING ∧
    (0 : Int) + TERRITORY_HEADER + TERRITORY_PADDING ≤
      (positionNodeInTerritory ⟨"t", "T", 0, 0,
        (calculateTerritoryDimensions 12).1,
        (calculateTerritoryDimensions 12).2, []⟩ 11).2 ∧
    (positionNodeInTerritory ⟨"t", "T", 0, 0,
        (calculateTerritoryDimensions 12).1,
        (calculateTerritoryDimensions 12).2, []⟩ 11).2 + NODE_HEIGHT ≤
      0 + (calculateTerritoryDimensions 12).2 - TERRITORY_PADDING :=
  territory_containment 0 0 12 11 (by decide) (by decide) (by decide)

/-- The territory clamp of `onNodeDragMove` in useNodes.js: `minX`/`minY`/
`maxX`/`maxY` plus the two `Math.max(..., Math.min(...))` lines (`60` is the
header-height literal of the source). -/
def onNodeDragMoveClamp (territory : Territory) (newX newY : Int) : Int × Int :=
  let minX := territory.x + TERRITORY_PADDING
  let minY := territory.y + 60 + TERRITORY_PADDING
  let maxX := territory.x + territory.w - NODE_WIDTH / 2 - TERRITORY_PADDING
  let maxY := territory.y + territory.h - NODE_HEIGHT / 2 - TERRITORY_PADDING
  (max (minX + NODE_WIDTH / 2) (min newX maxX),
   max (minY + NODE_HEIGHT / 2) (min newY maxY))

/-- Spec-side: the claim’s interior rectangle for the dragged card’s center:
`[x+padding+cardW/2, x+w-cardW/2-padding] × [y+header+padding+cardH/2,
y+h-cardH/2-padding]`. -/
def inDragBounds (t : Territory) (px py : Int) : Prop :=
  t.x + TERRITORY_PADDING + NODE_WIDTH / 2 ≤ px ∧
  px ≤ t.x + t.w - NODE_WIDTH / 2 - TERRITORY_PADDING ∧
  t.y + TERRITORY_HEADER + TERRITORY_PADDING + NODE_HEIGHT / 2 ≤ py ∧
  py ≤ t.y + t.h - NODE_HEIGHT / 2 - TERRITORY_PADDING

/-- Squared Euclidean distance between two points. -/
def dist2 (ax ay bx cy : Int) : Nat :=
  (ax - bx).natAbs ^ 2 + (ay - cy).natAbs ^ 2

/-- C7: for a territory whose padded interior holds at least one card, the
drag clamp (a) always lands in the claim’s interior rectangle, (b) is the
identity on candidates already inside it, and (c) maps any candidate to the
nearest point of that rectangle (minimal squared Euclidean distance). -/
theorem drag_clamp_nearest (t : Territory) (nx ny : Int)
    (hw : TERRITORY_PADDING * 2 + NODE_WIDTH ≤ t.w)
    (hh : TERRITORY_HEADER + TERRITORY_PADDING * 2 + NODE_HEIGHT ≤ t.h) :
    inDragBounds t (onNodeDragMoveClamp t nx ny).1 (onNodeDragMoveClamp t nx ny).2 ∧
    (inDragBounds t nx ny → onNodeDragMoveClamp t nx ny = (nx, ny)) ∧
    (∀ px py, inDragBounds t px py →
      dist2 nx ny (onNodeDragMoveClamp t nx ny).1 (onNodeDragMoveClamp t nx ny).2 ≤
        dist2 nx ny px py) := by
  simp only [TERRITORY_PADDING, TERRITORY_HEADER, NODE_WIDTH, NODE_HEIGHT] at hw hh
  refine ⟨?_, ?_, ?_⟩
  · simp only [inDragBounds, onNodeDragMoveClamp, TERRITORY_PADDING,
      TERRITORY_HEADER, NODE_WIDTH, NODE_HEIGHT]
    omega
  · intro hin
    simp only [inDragBounds, TERRITORY_PADDING, TERRITORY_HEADER,
      NODE_WIDTH, NODE_HEIGHT] at hin
    simp only [onNodeDragMoveClamp, TERRITORY_PADDING, TERRITORY_HEADER,
      NODE_WIDTH, NODE_HEIGHT, Prod.mk.injEq]
    omega
  · intro px py hp
    simp only [inDragBounds, TERRITORY_PADDING, TERRITORY_HEADER,
      NODE_WIDTH, NODE_HEIGHT] at hp
    have h1 : (nx - (onNodeDragMoveClamp t nx ny).1).natAbs ≤ (nx - px).natAbs := by
      simp only [onNodeDragMoveClamp, TERRITORY_PADDING, TERRITORY_HEADER,
        NODE_WIDTH, NODE_HEIGHT]
      omega
    have h2 : (ny - (onNodeDragMoveClamp t nx ny).2).natAbs ≤ (ny - py).natAbs := by
      simp only [onNodeDragMoveClamp, TERRITORY_PADDING, TERRITORY_HEADER,
        NODE_WIDTH, NODE_HEIGHT]
      omega
    unfold dist2
    exact Nat.add_le_add (Nat.pow_le_pow_left h1 2) (Nat.pow_le_pow_left h2 2)

/-- Witness for C7: a 400×400 territory at the origin and a far
out-of-bounds candidate. -/
theorem drag_clamp_nearest_witness :
    let t : Territory := ⟨"t", "T", 0, 0, 400, 400, ["n1"]⟩
    inDragBounds t (onNodeDragMoveClamp t 10000 (-10000)).1
      (onNodeDragMoveClamp t 10000 (-10000)).2 ∧
    (inDragBounds t 10000 (-10000) →
      onNodeDragMoveClamp t 10000 (-10000) = (10000, -10000)) ∧
    (∀ px py, inDragBounds t px py →
      dist2 10000 (-10000) (onNodeDragMoveClamp t 10000 (-10000)).1
          (onNodeDragMoveClamp t 10000 (-10000)).2 ≤
        dist2 10000 (-10000) px py) :=
  drag_clamp_nearest ⟨"t", "T", 0, 0, 400, 400, ["n1"]⟩ 10000 (-10000)
    (by decide) (by decide)

/-- The `dragging` reactive of useNodes.js. -/
structure Dragging where
  active : Bool
  dragId : Option String
  ox : Int
  oy : Int
deriving Repr, DecidableEq

/-- The module state touched by the drag handlers: the `nodes` and
`territories` collections and the `dragging` reactive. -/
structure CanvasState where
  nodes : List Node
  territories : List Territory
  dragging : Dragging
deriving Repr, DecidableEq

/-- The events that drive the drag handlers.  Pointer positions are already
world coordinates (`svgToWorld` is an external collaborator). -/
inductive DragEvent
  | dragStart (nodeId : String) (px py : Int)
  | dragMove (px py : Int)
  | dragEnd
  | deleteNode (nodeId : String)
deriving Repr, DecidableEq

/-- In-place mutation of the object returned by `nodes.find(...)`:
replace the first node with the given id. -/
def replaceFirst (nid : String) (f : Node → Node) : List Node → List Node
  | [] => []
  | m :: rest => if m.id = nid then f m :: rest else m :: replaceFirst nid f rest

/-- `deleteNode` of the state module: `findIndex` + `splice(idx, 1)` —
remove the first node with the given id. -/
def removeFirst (nid : String) : List Node → List Node
  | [] => []
  | m :: rest => if m.id = nid then rest else m :: removeFirst nid rest

/-- The territory branch of `onNodeDragMove`: clamp, boundary test, the
`_boundaryWarned` guard around the notification, and the position write;
the no-territory branch writes the raw position. -/
def dragMoveUpdate (s : CanvasState) (n : Node) (newX newY : Int) :
    List Node × Option String :=
  match s.territories.find? (fun t => t.nodeIds.contains n.id) with
  | some t =>
    if ((onNodeDragMoveClamp t newX newY).1 != newX ||
        (onNodeDragMoveClamp t newX newY).2 != newY) && !n.boundaryWarned then
      (replaceFirst n.id (fun m =>
        { m with
            x := (onNodeDragMoveClamp t newX newY).1
            y := (onNodeDragMoveClamp t newX newY).2
            boundaryWarned := true }) s.nodes,
       some n.id)
    else
      (replaceFirst n.id (fun m =>
        { m with
            x := (onNodeDragMoveClamp t newX newY).1
            y := (onNodeDragMoveClamp t newX newY).2 }) s.nodes,
       none)
  | none =>
    (replaceFirst n.id (fun m => { m with x := newX, y := newY }) s.nodes, none)

/-- One event of the drag protocol of useNodes.js
(`onNodeDragStart`/`onNodeDragMove`/`onNodeDragEnd`/`deleteNode`), with the
boundary-hit notification (the `console.log` breadcrumb) as observable
output. -/
def step (s : CanvasState) : DragEvent → CanvasState × Option String
  | .dragStart nid px py =>
    match s.nodes.find? (fun n => n.id == nid) with
    | none => (s, none)
    | some n =>
      ({ s with dragging := ⟨true, some nid, px - n.x, py - n.y⟩ }, none)
  | .dragMove px py =>
    match s.dragging.active, s.dragging.dragId with
    | true, some did =>
      match s.nodes.find? (fun n => n.id == did) with
      | none => (s, none)
      | some n =>
        let r := dragMoveUpdate s n (px - s.dragging.ox) (py - s.dragging.oy)
        ({ s with nodes := r.1 }, r.2)
    | _, _ => (s, none)
  | .dragEnd =>
    let nodes2 :=
      (match s.dragging.dragId with
      | some did =>
        replaceFirst did (fun m => { m with boundaryWarned := false }) s.nodes
      | none => s.nodes)
    ({ s with
        nodes := nodes2
        dragging := ⟨false, none, s.dragging.ox, s.dragging.oy⟩ }, none)
  | .deleteNode nid => ({ s with nodes := removeFirst nid s.nodes }, none)

/-- A whole gesture: run the events in order, collecting notifications. -/
def runTrace (s : CanvasState) : List DragEvent → CanvasState × List String
  | [] => (s, [])
  | e :: rest =>
    let r1 := step s e
    let r2 := runTrace r1.1 rest
    (r2.1, (match r1.2 with | some m => [m] | none => []) ++ r2.2)

theorem mem_replaceFirst {nid : String} {f : Node → Node} :
    ∀ {l : List Node} {m : Node}, m ∈ replaceFirst nid f l →
      m ∈ l ∨ ∃ m0, m0 ∈ l ∧ m0.id = nid ∧ m = f m0 := by
  intro l
  induction l with
  | nil => intro m h; cases h
  | cons n rest ih =>
    intro m h
    rw [replaceFirst] at h
    by_cases hn : n.id = nid
    · rw [if_pos hn] at h
      rcases List.mem_cons.mp h with h | h
      · exact Or.inr ⟨n, List.mem_cons_self n rest, hn, h⟩
      · exact Or.inl (List.mem_cons_of_mem n h)
    · rw [if_neg hn] at h
      rcases List.mem_cons.mp h with h | h
      · exact Or.inl (h ▸ List.mem_cons_self n rest)
      · rcases ih h with h2 | ⟨m0, hm0, hid0, hfm⟩
        · exact Or.inl (List.mem_cons_of_mem n h2)
        · exact Or.inr ⟨m0, List.mem_cons_of_mem n hm0, hid0, hfm⟩

theorem mem_removeFirst {nid : String} :
    ∀ {l : List Node} {m : Node}, m ∈ removeFirst nid l → m ∈ l := by
  intro l
  induction l with
  | nil => intro m h; cases h
  | cons n rest ih =>
    intro m h
    rw [removeFirst] at h
    by_cases hn : n.id = nid
    · rw [if_pos hn] at h
      exact List.mem_cons_of_mem n h
    · rw [if_neg hn] at h
      rcases List.mem_cons.mp h with h | h
      · exact h ▸ List.mem_cons_self n rest
      · exact List.mem_cons_of_mem n (ih h)

theorem replaceFirst_warned {nid : String} {f : Node → Node}
    (hw : ∀ m, (f m).boundaryWarned = true) :
    ∀ {l : List Node}, (l.map (fun n => n.id)).Nodup →
      ∀ m ∈ replaceFirst nid f l, m.id = nid → m.boundaryWarned = true := by
  intro l
  induction l with
  | nil => intro _ m h; cases h
  | cons n rest ih =>
    intro hnd m hm hid
    rw [List.map_cons, List.nodup_cons] at hnd
    rw [replaceFirst] at hm
    by_cases hn : n.id = nid
    · rw [if_pos hn] at hm
      rcases List.mem_cons.mp hm with h | h
      · exact h ▸ hw n
      · exfalso
        apply hnd.1
        rw [hn, ← hid]
        exact List.mem_map_of_mem (fun n2 => n2.id) h
    · rw [if_neg hn] at hm
      rcases List.mem_cons.mp hm with h | h
      · exact absurd (h ▸ hid) hn
      · exact ih hnd.2 m h hid

theorem replaceFirst_clear {nid : String} {f : Node → Node}
    (hw : ∀ m, (f m).boundaryWarned = false) :
    ∀ {l : List Node}, (l.map (fun n => n.id)).Nodup →
      (∀ m ∈ l, m.id ≠ nid → m.boundaryWarned = false) →
      ∀ m ∈ replaceFirst nid f l, m.boundaryWarned = false := by
  intro l
  induction l with
  | nil => intro _ _ m h; cases h
  | cons n rest ih =>
    intro hnd hothers m hm
    rw [List.map_cons, List.nodup_cons] at hnd
    rw [replaceFirst] at hm
    by_cases hn : n.id = nid
    · rw [if_pos hn] at hm
      rcases List.mem_cons.mp hm with h | h
      · exact h ▸ hw n
      · apply hothers m (List.mem_cons_of_mem n h)
        intro hmid
        apply hnd.1
        rw [hn, ← hmid]
        exact List.mem_map_of_mem (fun n2 => n2.id) h
    · rw [if_neg hn] at hm
      rcases List.mem_cons.mp hm with h | h
      · subst h
        exact hothers m (List.mem_cons_self m rest) hn
      · exact ih hnd.2
          (fun m2 hm2 hne => hothers m2 (List.mem_cons_of_mem n hm2) hne) m h

theorem dragMoveUpdate_spec (s : CanvasState) (n : Node) (newX newY : Int) :
    ∃ f : Node → Node,
      (∀ m, (f m).id = m.id) ∧
      (∀ m, (f m).boundaryWarned = true ∨ (f m).boundaryWarned = m.boundaryWarned) ∧
      (dragMoveUpdate s n newX newY).1 = replaceFirst n.id f s.nodes ∧
      ((dragMoveUpdate s n newX newY).2 = none ∨
        ((dragMoveUpdate s n newX newY).2 = some n.id ∧ n.boundaryWarned = false ∧
          ∀ m, (f m).boundaryWarned = true)) := by
  unfold dragMoveUpdate
  rcases hft : s.territories.find? (fun t => t.nodeIds.contains n.id) with _ | t
  · simp only [hft]
    exact ⟨fun m => { m with x := newX, y := newY },
      fun m => rfl, fun m => Or.inr rfl, rfl, Or.inl trivial⟩
  · simp only [hft]
    by_cases hb : (((onNodeDragMoveClamp t newX newY).1 != newX ||
        (onNodeDragMoveClamp t newX newY).2 != newY) && !n.boundaryWarned) = true
    · rw [if_pos hb]
      refine ⟨fun m => { m with x := (onNodeDragMoveClamp t newX newY).1, y := (onNodeDragMoveClamp t newX newY).2, boundaryWarned := true },
        fun m => rfl, fun m => Or.inl rfl, rfl, Or.inr ⟨rfl, ?_, fun m => rfl⟩⟩
      rcases Bool.and_eq_true_iff.mp hb with ⟨_, hnw⟩
      simpa using hnw
    · rw [if_neg hb]
      exact ⟨fun m => { m with x := (onNodeDragMoveClamp t newX newY).1, y := (onNodeDragMoveClamp t newX newY).2 },
        fun m => rfl, fun m => Or.inr rfl, rfl, Or.inl rfl⟩

theorem step_dragStart_frame (s : CanvasState) (nid2 : String) (px py : Int) :
    (step s (.dragStart nid2 px py)).1.nodes = s.nodes ∧
    (step s (.dragStart nid2 px py)).2 = none := by
  rw [step]
  rcases h : s.nodes.find? (fun n => n.id == nid2) with _ | n <;> simp only [h] <;>
    exact ⟨trivial, trivial⟩

theorem step_delete_frame (s : CanvasState) (nid2 : String) :
    (step s (.deleteNode nid2)).1.nodes = removeFirst nid2 s.nodes ∧
    (step s (.deleteNode nid2)).2 = none :=
  ⟨rfl, rfl⟩

theorem step_dragEnd_note (s : CanvasState) : (step s .dragEnd).2 = none := by
  rw [step]

theorem step_dragMove_guard (s : CanvasState) (px py : Int)
    (h : s.dragging.active = false ∨ s.dragging.dragId = none ∨
      (∃ did, s.dragging.dragId = some did ∧
        s.nodes.find? (fun n => n.id == did) = none)) :
    step s (.dragMove px py) = (s, none) := by
  rw [step]
  rcases h with h | h | ⟨did, hdid, hfind⟩
  · rw [h]
  · rw [h]
    rcases s.dragging.active with _ | _ <;> rfl
  · rw [hdid]
    rcases s.dragging.active with _ | _
    · rfl
    · simp only [hfind]

theorem step_dragMove_main {s : CanvasState} {did : String} {n : Node} (px py : Int)
    (hact : s.dragging.active = true) (hdid : s.dragging.dragId = some did)
    (hfind : s.nodes.find? (fun n2 => n2.id == did) = some n) :
    (step s (.dragMove px py)).1.nodes =
      (dragMoveUpdate s n (px - s.dragging.ox) (py - s.dragging.oy)).1 ∧
    (step s (.dragMove px py)).2 =
      (dragMoveUpdate s n (px - s.dragging.ox) (py - s.dragging.oy)).2 := by
  rw [step, hact, hdid]
  simp only [hfind]
  exact ⟨trivial, trivial⟩

theorem step_emit {s : CanvasState} {e : DragEvent} {nid : String}
    (hnodup : (s.nodes.map (fun n => n.id)).Nodup)
    (hstep : (step s e).2 = some nid) :
    ∀ m ∈ (step s e).1.nodes, m.id = nid → m.boundaryWarned = true := by
  cases e with
  | dragStart nid2 px py =>
    rw [(step_dragStart_frame s nid2 px py).2] at hstep
    cases hstep
  | dragEnd =>
    rw [step_dragEnd_note] at hstep
    cases hstep
  | deleteNode nid2 =>
    rw [(step_delete_frame s nid2).2] at hstep
    cases hstep
  | dragMove px py =>
    rcases hact : s.dragging.active with _ | _
    · rw [step_dragMove_guard s px py (Or.inl hact)] at hstep
      cases hstep
    · rcases hdid : s.dragging.dragId with _ | did
      · rw [step_dragMove_guard s px py (Or.inr (Or.inl hdid))] at hstep
        cases hstep
      · rcases hfind : s.nodes.find? (fun n2 => n2.id == did) with _ | n
        · rw [step_dragMove_guard s px py
            (Or.inr (Or.inr ⟨did, hdid, hfind⟩))] at hstep
          cases hstep
        · obtain ⟨hnodes, hnote⟩ := step_dragMove_main px py hact hdid hfind
          rw [hnote] at hstep
          rcases dragMoveUpdate_spec s n (px - s.dragging.ox) (py - s.dragging.oy)
            with ⟨f, hfid, hfmono, hrepl, hnotespec⟩
          rcases hnotespec with hnone | ⟨hsome, hnw, hfw⟩
          · rw [hnone] at hstep; cases hstep
          · rw [hsome] at hstep
            injection hstep with hh
            intro m hm hmid
            rw [hnodes, hrepl] at hm
            subst hh
            exact replaceFirst_warned hfw hnodup m hm hmid

theorem step_preserves {nid : String} {s : CanvasState} {e : DragEvent}
    (hne : e ≠ DragEvent.dragEnd)
    (hP : ∀ m ∈ s.nodes, m.id = nid → m.boundaryWarned = true) :
    (∀ m ∈ (step s e).1.nodes, m.id = nid → m.boundaryWarned = true) ∧
    (step s e).2 ≠ some nid := by
  cases e with
  | dragStart nid2 px py =>
    obtain ⟨h1, h2⟩ := step_dragStart_frame s nid2 px py
    refine ⟨?_, ?_⟩
    · rw [h1]; exact hP
    · rw [h2]; intro h; cases h
  | dragEnd => exact absurd rfl hne
  | deleteNode nid2 =>
    obtain ⟨h1, h2⟩ := step_delete_frame s nid2
    refine ⟨?_, ?_⟩
    · rw [h1]
      intro m hm hmid
      exact hP m (mem_removeFirst hm) hmid
    · rw [h2]; intro h; cases h
  | dragMove px py =>
    rcases hact : s.dragging.active with _ | _
    · rw [step_dragMove_guard s px py (Or.inl hact)]
      exact ⟨hP, by intro h; cases h⟩
    · rcases hdid : s.dragging.dragId with _ | did
      · rw [step_dragMove_guard s px py (Or.inr (Or.inl hdid))]
        exact ⟨hP, by intro h; cases h⟩
      · rcases hfind : s.nodes.find? (fun n2 => n2.id == did) with _ | n
        · rw [step_dragMove_guard s px py (Or.inr (Or.inr ⟨did, hdid, hfind⟩))]
          exact ⟨hP, by intro h; cases h⟩
        · obtain ⟨hnodes, hnote⟩ := step_dragMove_main px py hact hdid hfind
          rcases dragMoveUpdate_spec s n (px - s.dragging.ox) (py - s.dragging.oy)
            with ⟨f, hfid, hfmono, hrepl, hnotespec⟩
          have hnmem : n ∈ s.nodes := List.mem_of_find?_eq_some hfind
          refine ⟨?_, ?_⟩
          · intro m hm hmid
            rw [hnodes, hrepl] at hm
            rcases mem_replaceFirst hm with h | ⟨m0, hm0, _, rfl⟩
            · exact hP m h hmid
            · have hm0id : m0.id = nid := by rw [← hfid m0]; exact hmid
              have hm0w := hP m0 hm0 hm0id
              rcases hfmono m0 with h2 | h2
              · exact h2
              · rw [h2]; exact hm0w
          · rw [hnote]
            rcases hnotespec with hnone | ⟨hsome, hnw, _⟩
            · rw [hnone]; intro h; cases h
            · rw [hsome]
              intro h
              injection h with hh
              rw [hP n hnmem hh] at hnw
              cases hnw

theorem warned_suppresses (nid : String) :
    ∀ (tr : List DragEvent) (s : CanvasState),
      (∀ m ∈ s.nodes, m.id = nid → m.boundaryWarned = true) →
      DragEvent.dragEnd ∉ tr →
      nid ∉ (runTrace s tr).2 := by
  intro tr
  induction tr with
  | nil =>
    intro s _ _ h
    simp [runTrace] at h
  | cons e rest ih =>
    intro s hP hnd hmem
    have hene : e ≠ DragEvent.dragEnd := by
      intro h; exact hnd (h ▸ List.mem_cons_self e rest)
    have hndr : DragEvent.dragEnd ∉ rest := fun h => hnd (List.mem_cons_of_mem e h)
    obtain ⟨hP2, hnote⟩ := step_preserves hene hP
    simp only [runTrace] at hmem
    rcases hn : (step s e).2 with _ | msg
    · simp only [hn, List.nil_append] at hmem
      exact ih (step s e).1 hP2 hndr hmem
    · simp only [hn] at hmem
      rcases List.mem_append.mp hmem with h | h
      · have heq : nid = msg := by simpa using h
        exact hnote (by rw [hn, heq])
      · exact ih (step s e).1 hP2 hndr h

theorem dragEnd_clears (s : CanvasState)
    (hnodup : (s.nodes.map (fun n => n.id)).Nodup)
    (hothers : ∀ m ∈ s.nodes, s.dragging.dragId ≠ some m.id → m.boundaryWarned = false) :
    ∀ m ∈ (step s DragEvent.dragEnd).1.nodes, m.boundaryWarned = false := by
  rw [step]
  rcases hdid : s.dragging.dragId with _ | did
  · simp only [hdid]
    intro m hm
    exact hothers m hm (by rw [hdid]; intro h; cases h)
  · simp only [hdid]
    intro m hm
    refine replaceFirst_clear (fun m2 => rfl) hnodup ?_ m hm
    intro m2 hm2 hne
    refine hothers m2 hm2 ?_
    rw [hdid]
    intro h
    injection h with hh
    exact hne hh.symm

/-- C8: the boundary-warning protocol of `onNodeDragMove`/`onNodeDragEnd`:
(a) when a boundary-hit notification for a node is emitted, every node in
the collection carrying that id leaves the step flagged; (b) once a node is
flagged, no further boundary-hit notification for it is emitted by any
event sequence containing no `dragEnd` (so in particular none until the
drag ends); (c) `dragEnd` clears the flag unconditionally: provided only
the currently dragged node may be flagged, after `dragEnd` no node in the
collection is flagged — also when the dragged node was deleted mid-drag
and is no longer present. -/
theorem boundary_warning_protocol :
    (∀ (s : CanvasState) (e : DragEvent) (nid : String),
        (s.nodes.map (fun n => n.id)).Nodup →
        (step s e).2 = some nid →
        ∀ m ∈ (step s e).1.nodes, m.id = nid → m.boundaryWarned = true) ∧
    (∀ (nid : String) (tr : List DragEvent) (s : CanvasState),
        (∀ m ∈ s.nodes, m.id = nid → m.boundaryWarned = true) →
        DragEvent.dragEnd ∉ tr →
        nid ∉ (runTrace s tr).2) ∧
    (∀ (s : CanvasState),
        (s.nodes.map (fun n => n.id)).Nodup →
        (∀ m ∈ s.nodes, s.dragging.dragId ≠ some m.id → m.boundaryWarned = false) →
        ∀ m ∈ (step s DragEvent.dragEnd).1.nodes, m.boundaryWarned = false) :=
  ⟨fun _ _ _ hnodup hstep => step_emit hnodup hstep,
   warned_suppresses,
   dragEnd_clears⟩

-- Concrete drag fixtures for the witness.
def wTerr : Territory := ⟨"t1", "T", 0, 0, 400, 400, ["n1"]⟩
def wDragNode : Node := ⟨"n1", "N", none, none, 50, 150, true⟩
def wState : CanvasState := ⟨[wDragNode], [wTerr], ⟨true, some "n1", 0, 0⟩⟩

/-- Witness for C8: with the flag already set, two further out-of-bounds
drag moves (no dragEnd) emit no notification for the node. -/
theorem boundary_warning_protocol_witness :
    "n1" ∉ (runTrace wState
      [DragEvent.dragMove 10000 10000, DragEvent.dragMove (-500) (-500)]).2 :=
  boundary_warning_protocol.2.1 "n1"
    [DragEvent.dragMove 10000 10000, DragEvent.dragMove (-500) (-500)]
    wState (by decide) (by decide)
